import Mathlib

/-!
Verification of the `@savvycodes/guard` permission library.

The development shallowly embeds the TypeScript sources:
* `packages/core/src/index.ts` — `definePermissions`, `createGuard`, `can`, `cannot`;
* `packages/express/src/express.ts` — `PermissionDeniedError`, `extractPermissions`,
  and the `check` / `can` / `cannot` middleware factories.

JavaScript runtime values are modelled by inductive types, JS truthiness by
explicit `Bool`-valued functions, and nullable parameters by `Option`.
-/

namespace GuardSpec

/-! ## Core evaluator (`packages/core/src/index.ts`) -/

/--
A runtime value of the TypeScript union `T | T[] | T[][]` accepted by `can` as its
`requiredScopes` argument: a single permission string, a flat array of permission
strings, or an array of arrays of permission strings.

Note that the JavaScript value `[]` is represented by `ReqScopes.list []`; the
constructor application `ReqScopes.nested []` denotes the same runtime value
(an empty array), and the embedding of `can` below treats both identically,
mirroring how the untyped runtime cannot distinguish them.
-/
inductive ReqScopes where
  | str (s : String)
  | list (l : List String)
  | nested (l : List (List String))
deriving DecidableEq, Repr

/--
JS truthiness test used by `if (!requiredScopes || !scopes) return false;`:
among the values of type `T | T[] | T[][]`, only the empty string is falsy
(arrays, even empty ones, are truthy in JavaScript).
-/
def ReqScopes.falsy : ReqScopes → Bool
  | .str s => s.isEmpty
  | .list _ => false
  | .nested _ => false

/--
The normalization performed inside `can`:
* `isString(requiredScopes)` → `[[requiredScopes]]`;
* `isArray(requiredScopes) && every(requiredScopes, isString)` → `[requiredScopes]`;
* otherwise → `requiredScopes` used as-is.

For `ReqScopes.nested l` the lodash check `every(l, isString)` holds exactly when
`l` is empty (vacuously — no element is a string otherwise), in which case the
wrapped value `[requiredScopes]` is `[[]]`; this is the same behaviour the
runtime value `[]` gets through `ReqScopes.list []`.
-/
def normalize : ReqScopes → List (List String)
  | .str s => [[s]]
  | .list l => [l]
  | .nested l => if l.isEmpty then [[]] else l

/--
`can(scopes, requiredScopes)` from `packages/core/src/index.ts`:
guard clause `if (!requiredScopes || !scopes) return false;`, then normalization,
then `required.some(scope => every(scope, permission => scopes.indexOf(permission) !== -1))`.
`none` models a `null`/`undefined` argument. The function is total: every input
yields a boolean and no exception is possible.
-/
def can (scopes : Option (List String)) (requiredScopes : Option ReqScopes) : Bool :=
  match scopes, requiredScopes with
  | none, _ => false
  | _, none => false
  | some scopes, some rs =>
    if rs.falsy then false
    else (normalize rs).any fun scope => scope.all fun permission => scopes.contains permission

/-- `cannot(scopes, requiredScopes)` from `packages/core/src/index.ts`: `!can(scopes, requiredScopes)`. -/
def cannot (scopes : Option (List String)) (requiredScopes : Option ReqScopes) : Bool :=
  !(can scopes requiredScopes)

/--
The two call shapes of `definePermissions`: a single array argument
(`args.length === 1 && Array.isArray(args[0])`), or individual string arguments
collected into the variadic `args` array.
-/
inductive DefineArgs where
  | arr (l : List String)
  | variadic (args : List String)
deriving DecidableEq, Repr

/--
`definePermissions` from `packages/core/src/index.ts`: a single array argument is
returned directly (`return args[0]`); otherwise the variadic argument array is
returned (`return args`). No copying, reordering, or deduplication happens.
-/
def definePermissions : DefineArgs → List String
  | .arr l => l
  | .variadic args => args

/-- Helper for `jsSetDedup`: drop elements already seen, keeping first occurrences. -/
def dedupFrom (seen : List String) : List String → List String
  | [] => []
  | x :: xs => if seen.contains x then dedupFrom seen xs else x :: dedupFrom (x :: seen) xs

/--
`[...new Set(list)]` in JavaScript: a `Set` iterates in insertion order, so
spreading it yields the list with duplicates removed, keeping the first
occurrence of each element.
-/
def jsSetDedup (l : List String) : List String := dedupFrom [] l

/-- The object returned by `createGuard`: bound `can`/`cannot` functions and `permissions()`. -/
structure Guard where
  can : Option (List String) → Option ReqScopes → Bool
  cannot : Option (List String) → Option ReqScopes → Bool
  permissions : List String

/--
`createGuard(...permissionLists)` from `packages/core/src/index.ts`:
`const allPermissions = [...new Set(permissionLists.flat())]`, then an object
whose `can`/`cannot` simply delegate to the standalone functions and whose
`permissions()` returns `allPermissions`.
-/
def createGuard (permissionLists : List (List String)) : Guard :=
  let allPermissions := jsSetDedup permissionLists.flatten
  { can := fun scopes requiredScopes => can scopes requiredScopes
    cannot := fun scopes requiredScopes => cannot scopes requiredScopes
    permissions := allPermissions }

/-! ## Express adapter (`packages/express/src/express.ts`) -/

/--
The runtime value found at `req[requestProperty][permissionsProperty]`:
absent/`undefined`, a string, an array of strings, or any other value
(numbers, objects, …). `extractPermissions` returns `[]` for every
non-string non-array value, truthy or falsy, so `other` needs no refinement.
-/
inductive PermsField where
  | absent
  | str (s : String)
  | arr (l : List String)
  | other
deriving DecidableEq, Repr

/--
JavaScript `string.split(sep)` for a one-character separator, at the
character-list level: `"a  b "` splits on `' '` into `["a", "", "b", ""]`
and `""` splits into `[""]`. The predicate generalisation also lets the
whitespace-splitting reading of the extraction contract be stated.
-/
def splitChars (p : Char → Bool) : List Char → List (List Char)
  | [] => [[]]
  | c :: cs =>
    if p c then [] :: splitChars p cs
    else
      match splitChars p cs with
      | [] => [[c]]
      | r :: rs => (c :: r) :: rs

/-- `s.split(" ")` in JavaScript, via `splitChars` on the space character. -/
def jsSplitOnSpace (s : String) : List String :=
  (splitChars (fun c => c = ' ') s.toList).map List.asString

/--
`extractPermissions(req, requestProperty, permissionsProperty)` from
`packages/express/src/express.ts`, modelled over the value reached through the
two property lookups: `none` is a missing/falsy user object (`if (!user) return []`);
a falsy permissions value (absence, or the empty string) returns `[]`;
a string returns `permissions.split(" ").filter(Boolean)`; an array is returned
as-is; anything else returns `[]`. Total — no branch can throw.
-/
def extractPermissions (user : Option PermsField) : List String :=
  match user with
  | none => []
  | some permissions =>
    match permissions with
    | .absent => []
    | .str s =>
      if s.isEmpty then []
      else (jsSplitOnSpace s).filter (fun t => !t.isEmpty)
    | .arr l => l
    | .other => []

/-- The error raised on denial: `code = "permission_denied"`, `status = 403`. -/
structure PermissionDeniedError where
  message : String
  code : String
  status : Nat
deriving DecidableEq, Repr

/-- `new PermissionDeniedError(message)`: `code` and `status` are fixed by the class. -/
def permissionDeniedError (message : String) : PermissionDeniedError :=
  { message := message, code := "permission_denied", status := 403 }

/-- The default message of `PermissionDeniedError`, used by `check` and `can`. -/
def defaultDenialMessage : String := "Forbidden: Insufficient permissions"

/-- The distinct message used by the `cannot` middleware's denial. -/
def cannotDenialMessage : String := "Forbidden: User has permissions they should not have"

/--
Outcome of one middleware invocation. Each middleware body is wrapped in
`try { ... } catch (error) { next(error) }`, so the only observable outcomes are
`next()` and `next(error)`; an uncaught throw is impossible and has no constructor.
-/
inductive MwOutcome where
  | nextOk
  | nextError (e : PermissionDeniedError)
deriving DecidableEq, Repr

/--
The `check(requiredPermissions)` middleware: extract the user's permissions,
ask the guard, `next()` on success, otherwise `next(new PermissionDeniedError())`.
-/
def checkMiddleware (g : Guard) (requiredPermissions : ReqScopes) (user : Option PermsField) :
    MwOutcome :=
  if g.can (some (extractPermissions user)) (some requiredPermissions) then .nextOk
  else .nextError (permissionDeniedError defaultDenialMessage)

/-- The `can(requiredPermissions)` middleware — the source duplicates `check` verbatim. -/
def canMiddleware (g : Guard) (requiredPermissions : ReqScopes) (user : Option PermsField) :
    MwOutcome :=
  if g.can (some (extractPermissions user)) (some requiredPermissions) then .nextOk
  else .nextError (permissionDeniedError defaultDenialMessage)

/--
The `cannot(requiredPermissions)` middleware: `next()` when the guard's `cannot`
holds, otherwise `next(new PermissionDeniedError("Forbidden: User has permissions they should not have"))`.
-/
def cannotMiddleware (g : Guard) (requiredPermissions : ReqScopes) (user : Option PermsField) :
    MwOutcome :=
  if g.cannot (some (extractPermissions user)) (some requiredPermissions) then .nextOk
  else .nextError (permissionDeniedError cannotDenialMessage)

/-! ## Helper lemmas -/

/-- Bridge between the boolean `List.contains` used by the embedding and `∈`. -/
theorem contains_eq_true_iff (l : List String) (x : String) : l.contains x = true ↔ x ∈ l :=
  List.elem_iff

/-- `dedupFrom seen l` keeps exactly the elements of `l` that are not in `seen`. -/
theorem dedupFrom_mem (l : List String) :
    ∀ (seen : List String) (x : String), x ∈ dedupFrom seen l ↔ x ∈ l ∧ x ∉ seen := by
  induction l with
  | nil => intro seen x; simp [dedupFrom]
  | cons a as ih =>
    intro seen x
    cases hc : seen.contains a with
    | true =>
      have ha : a ∈ seen := (contains_eq_true_iff seen a).1 hc
      simp only [dedupFrom, hc, if_true, ih, List.mem_cons]
      constructor
      · rintro ⟨hx, hns⟩; exact ⟨Or.inr hx, hns⟩
      · rintro ⟨hx, hns⟩
        rcases hx with rfl | hx
        · exact absurd ha hns
        · exact ⟨hx, hns⟩
    | false =>
      have ha : a ∉ seen := fun h => by
        rw [(contains_eq_true_iff seen a).2 h] at hc; cases hc
      simp only [dedupFrom, hc, Bool.false_eq_true, if_false, List.mem_cons, ih]
      constructor
      · rintro (rfl | ⟨hx, hns⟩)
        · exact ⟨Or.inl rfl, ha⟩
        · exact ⟨Or.inr hx, fun h => hns (Or.inr h)⟩
      · rintro ⟨rfl | hx, hns⟩
        · exact Or.inl rfl
        · by_cases hxa : x = a
          · exact Or.inl hxa
          · exact Or.inr ⟨hx, fun h => h.elim hxa hns⟩

/-- `dedupFrom seen l` is a sublist of `l`: it preserves order and drops elements. -/
theorem dedupFrom_sublist (l : List String) :
    ∀ seen : List String, List.Sublist (dedupFrom seen l) l := by
  induction l with
  | nil => intro seen; simp [dedupFrom]
  | cons a as ih =>
    intro seen
    cases hc : seen.contains a with
    | true =>
      simp only [dedupFrom, hc, if_true]
      exact List.Sublist.cons a (ih seen)
    | false =>
      simp only [dedupFrom, hc, Bool.false_eq_true, if_false]
      exact List.Sublist.cons₂ a (ih (a :: seen))

/-- `dedupFrom` produces a duplicate-free list. -/
theorem dedupFrom_nodup (l : List String) :
    ∀ seen : List String, (dedupFrom seen l).Nodup := by
  induction l with
  | nil => intro seen; simp [dedupFrom]
  | cons a as ih =>
    intro seen
    cases hc : seen.contains a with
    | true =>
      simp only [dedupFrom, hc, if_true]
      exact ih seen
    | false =>
      simp only [dedupFrom, hc, Bool.false_eq_true, if_false]
      refine List.nodup_cons.2 ⟨fun h => ?_, ih (a :: seen)⟩
      exact ((dedupFrom_mem as (a :: seen) a).1 h).2 (List.mem_cons_self a seen)

/-! ## Theorems -/

/--
C1 counterexample: the claim states `can(["a"], []) == false`, but the code
returns `true`: the empty array is truthy, passes the lodash
`isArray(x) && every(x, isString)` test vacuously, is wrapped into `[[]]`,
and the single empty AND-group is vacuously satisfied by `every`.
-/
theorem can_empty_required_list_is_true_counterexample :
    can (some ["a"]) (some (.list [])) = true := by decide

/--
C1 (amended): for every non-null held-scope list, evaluating the empty required
array returns `true` — `[]` is normalized as one empty AND-group (`[[]]`), which
is vacuously satisfied; the outer `.some` never runs over an empty list for this
input. The same holds for the `nested` representation of the same runtime value.
-/
theorem can_empty_required_list_is_true (s : List String) :
    can (some s) (some (.list [])) = true ∧ can (some s) (some (.nested [])) = true :=
  ⟨rfl, rfl⟩

/--
C4: `can` is fail-closed — whenever the scopes argument is `null`/`undefined`,
or the required expression is falsy (`null`/`undefined`/`""`), `can` returns
`false`. Totality (no exception for any input) holds by construction: `can` is a
total function into `Bool`.
-/
theorem can_fail_closed (scopes : Option (List String)) (rs : Option ReqScopes)
    (h : scopes = none ∨ rs = none ∨ rs = some (.str "")) :
    can scopes rs = false := by
  rcases h with h | h | h
  · subst h; cases rs <;> rfl
  · subst h; cases scopes <;> rfl
  · subst h; cases scopes <;> rfl

/-- C4 witness: the fail-closed theorem applied at `can(null, "a")`. -/
theorem can_fail_closed_witness : can none (some (.str "a")) = false :=
  can_fail_closed none (some (.str "a")) (Or.inl rfl)

/--
C9: `cannot` is the boolean negation of `can`, for all inputs, including the
`null`/falsy ones.
-/
theorem cannot_eq_not_can (scopes : Option (List String)) (rs : Option ReqScopes) :
    cannot scopes rs = !(can scopes rs) := rfl

/--
C5: a required expression reached as a list of lists one of whose inner
AND-groups is empty evaluates to `true` for every held-scope list — the empty
group is a vacuous conjunction under `every`.
-/
theorem can_empty_inner_group (sc : List String) (l : List (List String)) (h : [] ∈ l) :
    can (some sc) (some (.nested l)) = true := by
  have hne : l.isEmpty = false := by
    cases l with
    | nil => cases h
    | cons a as => rfl
  simp only [can, ReqScopes.falsy, normalize, hne, Bool.false_eq_true, if_false,
    List.any_eq_true]
  exact ⟨[], h, rfl⟩

/-- C5 witness: `can([], [[]]) == true`. -/
theorem can_empty_inner_group_witness : can (some []) (some (.nested [[]])) = true :=
  can_empty_inner_group [] [[]] (by decide)

/--
C7: the registry never gates evaluation — for every choice of permission groups,
the guard's bound `can`/`cannot` coincide with the standalone pure functions.
-/
theorem createGuard_can_eq_can (gs : List (List String)) (scopes : Option (List String))
    (rs : Option ReqScopes) :
    (createGuard gs).can scopes rs = can scopes rs ∧
    (createGuard gs).cannot scopes rs = cannot scopes rs :=
  ⟨rfl, rfl⟩

/--
C10: `definePermissions` with an array argument returns exactly that sequence —
same elements, same order, duplicates retained — and deduplication happens only
later, in `createGuard`.
-/
theorem definePermissions_array_identity :
    (∀ l : List String, definePermissions (.arr l) = l) ∧
    definePermissions (.arr ["a", "a", "b"]) = ["a", "a", "b"] ∧
    (createGuard [definePermissions (.arr ["a", "a", "b"])]).permissions = ["a", "b"] :=
  ⟨fun _ => rfl, rfl, by decide⟩

/--
C6: `createGuard` accepts zero or more permission groups, always succeeds
(it is a total function), and `permissions()` is the concatenation of all
groups deduplicated in first-seen order: concretely
`createGuard(["a","b"], ["b","c"]).permissions() == ["a","b","c"]` and
`createGuard().permissions() == []`; in general the list is duplicate-free,
is an order-preserving sublist of the concatenation, and contains exactly the
permissions of the groups.
-/
theorem createGuard_permissions_dedup :
    (createGuard [["a", "b"], ["b", "c"]]).permissions = ["a", "b", "c"] ∧
    (createGuard []).permissions = [] ∧
    ∀ gs : List (List String),
      ((createGuard gs).permissions).Nodup ∧
      List.Sublist (createGuard gs).permissions gs.flatten ∧
      ∀ x, x ∈ (createGuard gs).permissions ↔ x ∈ gs.flatten := by
  refine ⟨by decide, rfl, fun gs => ?_⟩
  have hperm : (createGuard gs).permissions = dedupFrom [] gs.flatten := rfl
  rw [hperm]
  refine ⟨dedupFrom_nodup _ _, dedupFrom_sublist _ _, fun x => ?_⟩
  rw [dedupFrom_mem]
  simp

/--
C2: for a non-null held-scope list and a non-falsy required expression,
`can` returns `true` iff at least one AND-group of the normalized expression has
all of its permissions in the held scopes (exact string membership); and the
result only depends on the membership predicate of the held scopes, so it is
unchanged under reordering and duplication of `heldScopes`. Duplicates inside a
required group are likewise irrelevant, since the group is consumed through
`∀ p ∈ g`.
-/
theorem can_iff_satisfied_group (sc sc' : List String) (rs : ReqScopes)
    (hfalsy : rs.falsy = false)
    (hmem : ∀ p, p ∈ sc ↔ p ∈ sc') :
    (can (some sc) (some rs) = true ↔ ∃ g ∈ normalize rs, ∀ p ∈ g, p ∈ sc) ∧
    can (some sc) (some rs) = can (some sc') (some rs) := by
  constructor
  · simp [can, hfalsy, List.any_eq_true, List.all_eq_true, contains_eq_true_iff]
  · have hd : ∀ p : String, decide (p ∈ sc) = decide (p ∈ sc') := by
      intro p
      by_cases hp : p ∈ sc
      · simp [hp, (hmem p).1 hp]
      · have hp' : p ∉ sc' := fun hh => hp ((hmem p).2 hh)
        simp [hp, hp']
    simp [can, hfalsy, hd]

/--
C2 witness: the order/duplicate-independence part of `can_iff_satisfied_group`,
applied at `heldScopes = ["a","b"]` versus `["a","b","a"]` with required
expression `[["b","a"],["c"]]`.
-/
theorem can_iff_satisfied_group_witness :
    can (some ["a", "b"]) (some (.nested [["b", "a"], ["c"]])) =
      can (some ["a", "b", "a"]) (some (.nested [["b", "a"], ["c"]])) :=
  (can_iff_satisfied_group ["a", "b"] ["a", "b", "a"] (.nested [["b", "a"], ["c"]])
    (by decide)
    (by
      intro p
      simp only [List.mem_cons, List.not_mem_nil, or_false]
      tauto)).2

/--
C3 counterexample: the claim reads the extraction contract as splitting a
string-valued permissions field on whitespace, but the code calls
`permissions.split(" ")`, which splits on the space character only. On the
field value `"a\tb"` the whitespace reading yields `["a","b"]` while the code
returns `["a\tb"]` unsplit.
-/
theorem extractPermissions_whitespace_counterexample :
    ((splitChars Char.isWhitespace "a\tb".toList).map List.asString).filter
        (fun t => !t.isEmpty) = ["a", "b"] ∧
    extractPermissions (some (.str "a\tb")) = ["a\tb"] ∧
    extractPermissions (some (.str "a\tb")) ≠
      ((splitChars Char.isWhitespace "a\tb".toList).map List.asString).filter
        (fun t => !t.isEmpty) := by
  refine ⟨by decide, by decide, by decide⟩

/--
C3 (amended): for a string-valued permissions field, extraction splits the
string on the space character (U+0020) and discards empty tokens —
`"a  b "` yields `["a","b"]` and `""` yields `[]`; an array-valued field is
returned as-is; an absent field, absent user object, or any other value type
yields the empty sequence. Extraction is a total function, so it never raises.
Every token produced from a string field is nonempty.
-/
theorem extractPermissions_spec (s t : String) (l : List String)
    (ht : t ∈ extractPermissions (some (.str s))) :
    extractPermissions (some (.str "a  b ")) = ["a", "b"] ∧
    extractPermissions (some (.str "")) = [] ∧
    extractPermissions (some (.arr l)) = l ∧
    extractPermissions none = [] ∧
    extractPermissions (some .absent) = [] ∧
    extractPermissions (some .other) = [] ∧
    t ≠ "" := by
  refine ⟨by decide, rfl, rfl, rfl, rfl, rfl, ?_⟩
  simp only [extractPermissions] at ht
  split at ht
  · exact absurd ht (List.not_mem_nil t)
  · have hfilter := (List.mem_filter.mp ht).2
    intro hteq
    rw [hteq] at hfilter
    exact absurd hfilter (by decide)

/-- C3 witness: `extractPermissions_spec` applied at the field value `"x y"` and token `"x"`. -/
theorem extractPermissions_spec_witness :
    extractPermissions (some (.str "a  b ")) = ["a", "b"] ∧
    extractPermissions (some (.str "")) = [] ∧
    extractPermissions (some (.arr ["q"])) = ["q"] ∧
    extractPermissions none = [] ∧
    extractPermissions (some .absent) = [] ∧
    extractPermissions (some .other) = [] ∧
    ("x" : String) ≠ "" :=
  extractPermissions_spec "x y" "x" ["q"] (by decide)

/--
C8: every denial any of the three middleware factories can produce is a
`PermissionDeniedError` with `code = "permission_denied"` and `status = 403`,
and it is delivered through `next(error)` — the middleware outcome type has no
uncaught-throw case, because each handler body is wrapped in
`try/catch { next(error) }`. The `cannot` middleware's denial carries a
distinct message text, but the same code and status.
-/
theorem middleware_denial_shape (g : Guard) (rp : ReqScopes) (u : Option PermsField)
    (e : PermissionDeniedError) :
    ((checkMiddleware g rp u = .nextError e ∨ canMiddleware g rp u = .nextError e ∨
        cannotMiddleware g rp u = .nextError e) →
      e.code = "permission_denied" ∧ e.status = 403) ∧
    (checkMiddleware g rp u = .nextError e → e.message = defaultDenialMessage) ∧
    (canMiddleware g rp u = .nextError e → e.message = defaultDenialMessage) ∧
    (cannotMiddleware g rp u = .nextError e → e.message = cannotDenialMessage) ∧
    cannotDenialMessage ≠ defaultDenialMessage := by
  have hcheck : checkMiddleware g rp u = .nextError e →
      e = permissionDeniedError defaultDenialMessage := by
    intro h
    unfold checkMiddleware at h
    split at h
    · exact MwOutcome.noConfusion h
    · injection h with h'
      exact h'.symm
  have hcan : canMiddleware g rp u = .nextError e →
      e = permissionDeniedError defaultDenialMessage := by
    intro h
    unfold canMiddleware at h
    split at h
    · exact MwOutcome.noConfusion h
    · injection h with h'
      exact h'.symm
  have hcannot : cannotMiddleware g rp u = .nextError e →
      e = permissionDeniedError cannotDenialMessage := by
    intro h
    unfold cannotMiddleware at h
    split at h
    · exact MwOutcome.noConfusion h
    · injection h with h'
      exact h'.symm
  refine ⟨?_, ?_, ?_, ?_, by decide⟩
  · rintro (h | h | h)
    · rcases hcheck h with rfl; exact ⟨rfl, rfl⟩
    · rcases hcan h with rfl; exact ⟨rfl, rfl⟩
    · rcases hcannot h with rfl; exact ⟨rfl, rfl⟩
  · intro h; rcases hcheck h with rfl; rfl
  · intro h; rcases hcan h with rfl; rfl
  · intro h; rcases hcannot h with rfl; rfl

/--
C8 witness: with an empty registry guard, required permission `"a"`, and no user
on the request, the `check` middleware denies; `middleware_denial_shape` then
gives the code/status of the produced error.
-/
theorem middleware_denial_shape_witness :
    (permissionDeniedError defaultDenialMessage).code = "permission_denied" ∧
    (permissionDeniedError defaultDenialMessage).status = 403 :=
  (middleware_denial_shape (createGuard []) (.str "a") none
      (permissionDeniedError defaultDenialMessage)).1 (Or.inl (by decide))

end GuardSpec
